import Mathlib

/-!
Verification of the byte-array extend aspect
(src/ddtrace/appsec/iast/_taint_tracking/Aspects/AspectExtend.cpp,
function api_extend_aspect) against its specification.

The aspect is embedded shallowly: Python objects are identities tagged
with their type, the heap maps a byte array's identity to its byte
content, and the context's Tainting Map is an optional association list
from identity to a taint record (a list of taint ranges).  The external
collaborators that the aspect calls (the Tainting Map interface and the
byte-array append primitive) are not part of the visible source; they
are modelled from the specification's interface section.
-/

namespace AspectExtend

/-- A taint range: a contiguous span of a buffer attributed to an
untrusted source.  Fields mirror the repository's range type: offsets
are machine integers, the source is an opaque handle. -/
structure TaintRange where
  start : Int
  length : Int
  source : Nat
deriving DecidableEq

/-- An operand at the native-ABI boundary: either a byte array with a
stable identity, or a value of some other, append-incompatible type. -/
inductive PyVal where
  | bytearray (ident : Nat)
  | other (ident : Nat)
deriving DecidableEq

/-- The identity of an operand (the object pointer / its key in the
Tainting Map). -/
def PyVal.ident : PyVal → Nat
  | .bytearray i => i
  | .other i => i

/-- The heap: identity of a byte array to its byte content. -/
abbrev Heap := List (Nat × List Nat)

/-- A taint record: the ordered list of taint ranges of one buffer. -/
abbrev TaintRecord := List TaintRange

/-- The Tainting Map: identity to taint record. -/
abbrev TaintMap := List (Nat × TaintRecord)

/-- The state visible to the aspect: buffer contents plus the optional
context-scoped Tainting Map (none when no context is active). -/
structure State where
  heap : Heap
  taintMap : Option TaintMap
deriving DecidableEq

/-- Read a byte array's content (empty for an unknown identity). -/
def lookupHeap (h : Heap) (i : Nat) : List Nat :=
  match h.find? (fun p => p.1 == i) with
  | some p => p.2
  | none => []

/-- Replace a byte array's content. -/
def writeHeap (h : Heap) (i : Nat) (c : List Nat) : Heap :=
  (i, c) :: h.filter (fun p => p.1 != i)

/-- PyByteArray_Size: the length of a byte array; -1 (with an error
flag the aspect never inspects) for any other type. -/
def pyByteArray_Size (st : State) (v : PyVal) : Int :=
  match v with
  | .bytearray i => ((lookupHeap st.heap i).length : Int)
  | .other _ => -1

/-- Modelled from the spec: the external Buffer primitive
append_in_place, invoked by the aspect through the extend method call.
Appending a byte array mutates the destination in place; an
append-incompatible addition makes the primitive fail, leaving the
destination's content unchanged (the aspect ignores the failure). -/
def bytearray_extend (st : State) (dest add : PyVal) : State :=
  match dest, add with
  | .bytearray i, .bytearray j =>
      { st with heap := writeHeap st.heap i (lookupHeap st.heap i ++ lookupHeap st.heap j) }
  | _, _ => st

/-- Modelled from the spec: map.lookup(identity), a non-owning read of
the Tainting Map (get_tainted_object is not under src/). -/
def get_tainted_object (m : TaintMap) (i : Nat) : Option TaintRecord :=
  (m.find? (fun p => p.1 == i)).map Prod.snd

/-- Modelled from the spec: map.allocate_record(from), a new
independently-owned record, optionally seeded by cloning an existing
one (Initializer::allocate_tainted_object is not under src/). -/
def allocate_tainted_object (src : Option TaintRecord) : TaintRecord :=
  src.getD []

/-- Modelled from the spec: map.store(identity, record), inserting or
replacing the entry (set_tainted_object is not under src/). -/
def set_tainted_object (m : TaintMap) (i : Nat) (r : TaintRecord) : TaintMap :=
  (i, r) :: m.filter (fun p => p.1 != i)

/-- Shift one taint range forward by an offset, keeping its length and
source. -/
def shiftRange (off : Int) (r : TaintRange) : TaintRange :=
  { r with start := r.start + off }

/-- Modelled from the spec: the Range-Shift Merge Algorithm of section
4.2 (TaintedObject::add_ranges_shifted is not under src/): append the
addition's ranges, each shifted by the offset, after the base ranges,
preserving order, with no coalescing. -/
def add_ranges_shifted (base addition : TaintRecord) (off : Int) : TaintRecord :=
  base ++ addition.map (shiftRange off)

/-- The aspect's return value at the C ABI: Py_None on success, a null
pointer on the argument-shape error. -/
inductive PyRet where
  | none_
  | nullptr
deriving DecidableEq

/-- The embedding of api_extend_aspect
(src/ddtrace/appsec/iast/_taint_tracking/Aspects/AspectExtend.cpp).
The argument vector is an optional list (none models a null args
pointer); the result pairs the returned value with the final state. -/
def api_extend_aspect (args : Option (List PyVal)) (st : State) : PyRet × State :=
  match args with
  | some [candidate_text, to_add] =>
    let len_candidate_text := pyByteArray_Size st candidate_text
    let st1 := bytearray_extend st candidate_text to_add
    match st1.taintMap with
    | none => (.none_, st1)
    | some ctx_map =>
      if ctx_map.isEmpty then (.none_, st1)
      else
        let to_candidate := get_tainted_object ctx_map candidate_text.ident
        let to_result := allocate_tainted_object to_candidate
        let to_toadd := get_tainted_object ctx_map to_add.ident
        let to_result2 :=
          match to_toadd with
          | some t => add_ranges_shifted to_result t len_candidate_text
          | none => to_result
        (.none_, { st1 with taintMap := some (set_tainted_object ctx_map candidate_text.ident to_result2) })
  | _ => (.nullptr, st)

/-- The content of an operand's buffer in a state. -/
def content (st : State) (v : PyVal) : List Nat :=
  lookupHeap st.heap v.ident

/-- The Tainting Map entry stored under an identity, if a map is active
and holds one. -/
def taintAt (st : State) (k : Nat) : Option TaintRecord :=
  st.taintMap.bind (fun m => get_tainted_object m k)

/-- The Tainting Map entry of an operand. -/
def taintEntry (st : State) (v : PyVal) : Option TaintRecord :=
  taintAt st v.ident

/-- Two taint ranges occupy disjoint spans of the buffer. -/
def disjointR (r1 r2 : TaintRange) : Prop :=
  r1.start + r1.length ≤ r2.start ∨ r2.start + r2.length ≤ r1.start

instance (r1 r2 : TaintRange) : Decidable (disjointR r1 r2) := by
  unfold disjointR; infer_instance

/-- The range invariant of a taint record against the length of its
owning buffer: every range has a non-negative start, a positive length,
stays within the buffer, and no two ranges overlap. -/
def wfRanges (rs : TaintRecord) (len : Nat) : Prop :=
  (∀ r ∈ rs, 0 ≤ r.start ∧ 0 < r.length ∧ r.start + r.length ≤ (len : Int)) ∧
  rs.Pairwise disjointR

instance (rs : TaintRecord) (len : Nat) : Decidable (wfRanges rs len) := by
  unfold wfRanges; infer_instance

/-- Byte offset i of the owning buffer is covered by one of the
record's ranges (it came from a tainted source). -/
def coversByte (rs : TaintRecord) (i : Int) : Prop :=
  ∃ r ∈ rs, r.start ≤ i ∧ i < r.start + r.length

/-- Neither operand tainted, but the map holds an entry for an
unrelated identity 99. -/
def c1St : State :=
  { heap := [(0, [97]), (1, [98])], taintMap := some [(99, [⟨0, 1, 7⟩])] }

/-- The spec's scenario: A = b"ab" tainted with one range of source 1,
B = b"xyz" tainted with one range of source 2. -/
def c2St : State :=
  { heap := [(0, [97, 98]), (1, [120, 121, 122])],
    taintMap := some [(0, [⟨0, 2, 1⟩]), (1, [⟨1, 1, 2⟩])] }

/-- Untainted destination of length 5, tainted addition with ranges
starting at offset 0 of length 3. -/
def c3St : State :=
  { heap := [(0, [1, 2, 3, 4, 5]), (1, [9, 9, 9])], taintMap := some [(1, [⟨0, 3, 8⟩])] }

/-- Destination b"a", tainted; the addition operand will be of an
append-incompatible type. -/
def c4St : State :=
  { heap := [(0, [97])], taintMap := some [(0, [⟨0, 1, 3⟩])] }

/-- State used to show a malformed call has no effect. -/
def c5St : State :=
  { heap := [(0, [7])], taintMap := some [(0, [⟨0, 1, 4⟩])] }

/-- A state with no active Tainting Map. -/
def c6St : State :=
  { heap := [(0, [1, 2]), (1, [3])], taintMap := none }

/-- Tainted destination, untainted addition. -/
def c7St : State :=
  { heap := [(0, [5, 6]), (1, [7])], taintMap := some [(0, [⟨1, 1, 4⟩])] }

/-- Both operands tainted, for the invariant-preservation witness. -/
def c8St : State :=
  { heap := [(0, [97, 98]), (1, [120, 121, 122])],
    taintMap := some [(0, [⟨0, 2, 1⟩]), (1, [⟨1, 1, 2⟩])] }

/-- Empty destination, tainted addition. -/
def c9St : State :=
  { heap := [(0, []), (1, [9])], taintMap := some [(1, [⟨0, 1, 6⟩])] }

/-- A state for the frame-effect witness: the addition's identity 1 is
tainted before the call. -/
def c10St : State :=
  { heap := [(0, [4]), (1, [5])], taintMap := some [(1, [⟨0, 1, 9⟩])] }

theorem lookupHeap_writeHeap_self (h : Heap) (i : Nat) (c : List Nat) :
    lookupHeap (writeHeap h i c) i = c := by
  simp [lookupHeap, writeHeap]

theorem get_set_self (m : TaintMap) (i : Nat) (r : TaintRecord) :
    get_tainted_object (set_tainted_object m i r) i = some r := by
  simp [get_tainted_object, set_tainted_object]

theorem find?_filter_ne (m : TaintMap) (i j : Nat) (h : j ≠ i) :
    (m.filter (fun p => p.1 != i)).find? (fun p => p.1 == j) =
      m.find? (fun p => p.1 == j) := by
  induction m with
  | nil => rfl
  | cons hd tl ih =>
      by_cases hi : hd.1 = i
      · simp [List.filter_cons, List.find?_cons, hi, Ne.symm h, ih]
      · by_cases hj : hd.1 = j
        · simp [List.filter_cons, List.find?_cons, hi, hj, h]
        · simp [List.filter_cons, List.find?_cons, hi, hj, ih]

theorem get_set_ne (m : TaintMap) (i j : Nat) (r : TaintRecord) (h : j ≠ i) :
    get_tainted_object (set_tainted_object m i r) j = get_tainted_object m j := by
  have hij : (i == j) = false := by simp [Ne.symm h]
  simp [get_tainted_object, set_tainted_object, List.find?_cons_of_neg, hij,
    find?_filter_ne m i j h]

theorem isEmpty_false_of_get (m : TaintMap) (i : Nat) (r : TaintRecord)
    (h : get_tainted_object m i = some r) : m.isEmpty = false := by
  cases m with
  | nil => simp [get_tainted_object] at h
  | cons hd tl => rfl

theorem taintEntry_some_elim {st : State} {v : PyVal} {r : TaintRecord}
    (h : taintEntry st v = some r) :
    ∃ m, st.taintMap = some m ∧ get_tainted_object m v.ident = some r := by
  cases hm : st.taintMap with
  | none => simp [taintEntry, taintAt, hm] at h
  | some m => exact ⟨m, rfl, by simpa [taintEntry, taintAt, hm] using h⟩

theorem run_nomap (st : State) (a b : Nat) (hm : st.taintMap = none) :
    api_extend_aspect (some [PyVal.bytearray a, PyVal.bytearray b]) st =
      (PyRet.none_,
       { heap := writeHeap st.heap a (lookupHeap st.heap a ++ lookupHeap st.heap b),
         taintMap := none }) := by
  simp [api_extend_aspect, bytearray_extend, hm]

theorem run_empty (st : State) (a b : Nat) (hm : st.taintMap = some []) :
    api_extend_aspect (some [PyVal.bytearray a, PyVal.bytearray b]) st =
      (PyRet.none_,
       { heap := writeHeap st.heap a (lookupHeap st.heap a ++ lookupHeap st.heap b),
         taintMap := some [] }) := by
  simp [api_extend_aspect, bytearray_extend, hm]

theorem run_nonempty (st : State) (m : TaintMap) (a b : Nat)
    (hm : st.taintMap = some m) (hne : m.isEmpty = false) :
    api_extend_aspect (some [PyVal.bytearray a, PyVal.bytearray b]) st =
      (PyRet.none_,
       { heap := writeHeap st.heap a (lookupHeap st.heap a ++ lookupHeap st.heap b),
         taintMap := some (set_tainted_object m a
           (((get_tainted_object m a).getD []) ++
            ((get_tainted_object m b).getD []).map
              (shiftRange ((lookupHeap st.heap a).length : Int)))) }) := by
  cases hgb : get_tainted_object m b with
  | none =>
      simp [api_extend_aspect, bytearray_extend, pyByteArray_Size, PyVal.ident, hm, hne, hgb,
        allocate_tainted_object, add_ranges_shifted]
  | some t =>
      simp [api_extend_aspect, bytearray_extend, pyByteArray_Size, PyVal.ident, hm, hne, hgb,
        allocate_tainted_object, add_ranges_shifted]

/-- C5 (confirmed): a call with other than exactly two operands, or
with a null operand list, returns the null-pointer failure
(InvalidArgument) immediately and has no observable effect: the state,
buffer contents and Tainting Map included, is exactly the input state. -/
theorem extend_bad_call_shape (args : Option (List PyVal)) (st : State)
    (h : args = none ∨ ∃ l, args = some l ∧ l.length ≠ 2) :
    api_extend_aspect args st = (PyRet.nullptr, st) := by
  rcases h with rfl | ⟨l, rfl, hl⟩
  · rfl
  · cases l with
    | nil => rfl
    | cons x xs =>
      cases xs with
      | nil => rfl
      | cons y ys =>
        cases ys with
        | nil => exact absurd rfl hl
        | cons z zs => rfl

/-- Witness for C5: a one-operand call at a concrete state returns the
null failure and leaves the state unchanged. -/
theorem extend_bad_call_shape_witness :
    api_extend_aspect (some [PyVal.bytearray 0]) c5St = (PyRet.nullptr, c5St) :=
  extend_bad_call_shape (some [PyVal.bytearray 0]) c5St
    (Or.inr ⟨[PyVal.bytearray 0], rfl, by decide⟩)

/-- C6 (confirmed): when no Tainting Map is active, or the active map
has no entries at all, extend still performs the real append on the
destination, leaves the Tainting Map exactly as it was (no entry is
stored), and returns successfully. -/
theorem extend_no_active_map (st : State) (a b : Nat)
    (h : st.taintMap = none ∨ st.taintMap = some []) :
    (api_extend_aspect (some [PyVal.bytearray a, PyVal.bytearray b]) st).1 = PyRet.none_ ∧
    content (api_extend_aspect (some [PyVal.bytearray a, PyVal.bytearray b]) st).2 (PyVal.bytearray a)
      = content st (PyVal.bytearray a) ++ content st (PyVal.bytearray b) ∧
    (api_extend_aspect (some [PyVal.bytearray a, PyVal.bytearray b]) st).2.taintMap = st.taintMap := by
  rcases h with hm | hm
  · rw [run_nomap st a b hm]
    exact ⟨rfl, by simp [content, PyVal.ident, lookupHeap_writeHeap_self], hm.symm⟩
  · rw [run_empty st a b hm]
    exact ⟨rfl, by simp [content, PyVal.ident, lookupHeap_writeHeap_self], hm.symm⟩

/-- Witness for C6: with no active map, the call at a concrete state
succeeds, appends, and leaves the map state unchanged. -/
theorem extend_no_active_map_witness :
    (api_extend_aspect (some [PyVal.bytearray 0, PyVal.bytearray 1]) c6St).1 = PyRet.none_ ∧
    content (api_extend_aspect (some [PyVal.bytearray 0, PyVal.bytearray 1]) c6St).2 (PyVal.bytearray 0)
      = content c6St (PyVal.bytearray 0) ++ content c6St (PyVal.bytearray 1) ∧
    (api_extend_aspect (some [PyVal.bytearray 0, PyVal.bytearray 1]) c6St).2.taintMap = c6St.taintMap :=
  extend_no_active_map c6St 0 1 (Or.inl rfl)

/-- Counterexample to C4 as stated: with destination b"a" and an
append-incompatible addition, the aspect does not fail: it returns
Py_None (success), never a TypeMismatch error; the destination is
unchanged only because the external append primitive itself failed. -/
theorem extend_type_mismatch_counterexample :
    (api_extend_aspect (some [PyVal.bytearray 0, PyVal.other 1]) c4St).1 = PyRet.none_ ∧
    (api_extend_aspect (some [PyVal.bytearray 0, PyVal.other 1]) c4St).1 ≠ PyRet.nullptr ∧
    content (api_extend_aspect (some [PyVal.bytearray 0, PyVal.other 1]) c4St).2 (PyVal.bytearray 0)
      = [97] := by
  decide

/-- C4 (amended): the aspect performs no type or length check on the
addition; with an append-incompatible addition the underlying append
primitive fails and the destination's content is unchanged, but the
aspect itself does not fail: it returns success. -/
theorem extend_incompatible_addition (st : State) (a i : Nat) :
    (api_extend_aspect (some [PyVal.bytearray a, PyVal.other i]) st).1 = PyRet.none_ ∧
    content (api_extend_aspect (some [PyVal.bytearray a, PyVal.other i]) st).2 (PyVal.bytearray a)
      = content st (PyVal.bytearray a) := by
  cases hm : st.taintMap with
  | none => simp [api_extend_aspect, bytearray_extend, hm, content]
  | some m =>
      by_cases he : m.isEmpty
      · simp [api_extend_aspect, bytearray_extend, hm, he, content]
      · simp [api_extend_aspect, bytearray_extend, hm, he, content]

/-- Counterexample to C1 as stated: with a non-empty Tainting Map that
holds only an entry for an unrelated identity, and neither operand
tainted, extend succeeds and appends correctly, yet the destination
ends with a Tainting Map entry (holding an empty record), where the
claim says it has none. -/
theorem extend_untainted_entry_counterexample :
    taintEntry c1St (PyVal.bytearray 0) = none ∧
    taintEntry c1St (PyVal.bytearray 1) = none ∧
    (api_extend_aspect (some [PyVal.bytearray 0, PyVal.bytearray 1]) c1St).1 = PyRet.none_ ∧
    content (api_extend_aspect (some [PyVal.bytearray 0, PyVal.bytearray 1]) c1St).2 (PyVal.bytearray 0)
      = [97, 98] ∧
    taintEntry (api_extend_aspect (some [PyVal.bytearray 0, PyVal.bytearray 1]) c1St).2 (PyVal.bytearray 0)
      = some [] := by
  decide

/-- C1 (amended): for buffers with no taint metadata, extend succeeds
and the destination's content is the pre-call content of A concatenated
with that of B; the destination ends with no Tainting Map entry when no
map is active or the active map is empty, but when the active map is
non-empty an entry holding an empty taint record is stored for the
destination (the store is unconditional once the map is non-empty). -/
theorem extend_untainted_operands (st : State) (a b : Nat)
    (hA : taintEntry st (PyVal.bytearray a) = none)
    (hB : taintEntry st (PyVal.bytearray b) = none) :
    (api_extend_aspect (some [PyVal.bytearray a, PyVal.bytearray b]) st).1 = PyRet.none_ ∧
    content (api_extend_aspect (some [PyVal.bytearray a, PyVal.bytearray b]) st).2 (PyVal.bytearray a)
      = content st (PyVal.bytearray a) ++ content st (PyVal.bytearray b) ∧
    taintEntry (api_extend_aspect (some [PyVal.bytearray a, PyVal.bytearray b]) st).2 (PyVal.bytearray a)
      = (match st.taintMap with
         | none => none
         | some m => if m.isEmpty then none else some []) := by
  cases hm : st.taintMap with
  | none =>
      rw [run_nomap st a b hm]
      exact ⟨rfl, by simp [content, PyVal.ident, lookupHeap_writeHeap_self],
        by simp [taintEntry, taintAt]⟩
  | some m =>
      by_cases he : m.isEmpty
      · have hm0 : m = [] := List.isEmpty_iff.mp he
        subst hm0
        rw [run_empty st a b hm]
        refine ⟨rfl, by simp [content, PyVal.ident, lookupHeap_writeHeap_self], ?_⟩
        simp [taintEntry, taintAt, get_tainted_object, hm]
      · have hne : m.isEmpty = false := by simpa using he
        simp [taintEntry, taintAt, hm, PyVal.ident] at hA hB
        rw [run_nonempty st m a b hm hne]
        refine ⟨rfl, by simp [content, PyVal.ident, lookupHeap_writeHeap_self], ?_⟩
        simp [taintEntry, taintAt, PyVal.ident, get_set_self, hA, hB, hm, hne]

/-- Witness for the amended C1 at a concrete state whose map holds an
unrelated entry. -/
theorem extend_untainted_operands_witness :
    (api_extend_aspect (some [PyVal.bytearray 0, PyVal.bytearray 1]) c1St).1 = PyRet.none_ ∧
    content (api_extend_aspect (some [PyVal.bytearray 0, PyVal.bytearray 1]) c1St).2 (PyVal.bytearray 0)
      = content c1St (PyVal.bytearray 0) ++ content c1St (PyVal.bytearray 1) ∧
    taintEntry (api_extend_aspect (some [PyVal.bytearray 0, PyVal.bytearray 1]) c1St).2 (PyVal.bytearray 0)
      = (match c1St.taintMap with
         | none => none
         | some m => if m.isEmpty then none else some []) :=
  extend_untainted_operands c1St 0 1 (by decide) (by decide)

/-- C2 (confirmed): when both operands carry taint records, the
destination's stored record after extend is exactly R_A concatenated
with R_B with every start shifted by the pre-mutation length of A: all
of R_A's ranges come first, relative order is preserved within each
input, and no ranges are coalesced (the result is the literal
concatenation). -/
theorem extend_both_tainted (st : State) (a b : Nat) (RA RB : TaintRecord)
    (hA : taintEntry st (PyVal.bytearray a) = some RA)
    (hB : taintEntry st (PyVal.bytearray b) = some RB) :
    (api_extend_aspect (some [PyVal.bytearray a, PyVal.bytearray b]) st).1 = PyRet.none_ ∧
    content (api_extend_aspect (some [PyVal.bytearray a, PyVal.bytearray b]) st).2 (PyVal.bytearray a)
      = content st (PyVal.bytearray a) ++ content st (PyVal.bytearray b) ∧
    taintEntry (api_extend_aspect (some [PyVal.bytearray a, PyVal.bytearray b]) st).2 (PyVal.bytearray a)
      = some (RA ++ RB.map (shiftRange ((content st (PyVal.bytearray a)).length : Int))) := by
  obtain ⟨m, hm, hga⟩ := taintEntry_some_elim hA
  obtain ⟨m2, hm2, hgb⟩ := taintEntry_some_elim hB
  rw [hm] at hm2
  injection hm2 with hm2
  subst hm2
  simp only [PyVal.ident] at hga hgb
  have hne := isEmpty_false_of_get m _ _ hga
  rw [run_nonempty st m a b hm hne]
  refine ⟨rfl, by simp [content, PyVal.ident, lookupHeap_writeHeap_self], ?_⟩
  simp [taintEntry, taintAt, PyVal.ident, get_set_self, hga, hgb, content]

/-- Witness for C2: the specification's scenario, A = b"ab" tainted
with one range of source 1 over the whole buffer, B = b"xyz" tainted
with a length-1 range at offset 1 of source 2: the resulting content is
b"abxyz" and the resulting entry is the two-element record with the
second range shifted to offset 3. -/
theorem extend_both_tainted_scenario :
    content (api_extend_aspect (some [PyVal.bytearray 0, PyVal.bytearray 1]) c2St).2 (PyVal.bytearray 0)
      = [97, 98, 120, 121, 122] ∧
    taintEntry (api_extend_aspect (some [PyVal.bytearray 0, PyVal.bytearray 1]) c2St).2 (PyVal.bytearray 0)
      = some [⟨0, 2, 1⟩, ⟨3, 1, 2⟩] := by
  have h := extend_both_tainted c2St 0 1 [⟨0, 2, 1⟩] [⟨1, 1, 2⟩] (by decide) (by decide)
  exact ⟨h.2.1.trans (by decide), h.2.2.trans (by decide)⟩

/-- C3 (confirmed): with an untainted destination and a tainted
addition, every range of the addition's record appears in the
destination's resulting entry with its start increased by exactly the
destination's pre-mutation length, keeping its length and source. -/
theorem extend_untainted_dest_tainted_addition (st : State) (a b : Nat) (RB : TaintRecord)
    (hA : taintEntry st (PyVal.bytearray a) = none)
    (hB : taintEntry st (PyVal.bytearray b) = some RB) :
    (api_extend_aspect (some [PyVal.bytearray a, PyVal.bytearray b]) st).1 = PyRet.none_ ∧
    taintEntry (api_extend_aspect (some [PyVal.bytearray a, PyVal.bytearray b]) st).2 (PyVal.bytearray a)
      = some (RB.map (shiftRange ((content st (PyVal.bytearray a)).length : Int))) := by
  obtain ⟨m, hm, hgb⟩ := taintEntry_some_elim hB
  simp only [PyVal.ident] at hgb
  have hne := isEmpty_false_of_get m _ _ hgb
  simp [taintEntry, taintAt, hm, PyVal.ident] at hA
  rw [run_nonempty st m a b hm hne]
  refine ⟨rfl, ?_⟩
  simp [taintEntry, taintAt, PyVal.ident, get_set_self, hA, hgb, content]

/-- Witness for C3: the specification's example, an untainted
destination of length 5 and an addition tainted with the single range
of start 0, length 3, source 8, yields the entry with the single range
of start 5, length 3, source 8. -/
theorem extend_untainted_dest_witness :
    taintEntry (api_extend_aspect (some [PyVal.bytearray 0, PyVal.bytearray 1]) c3St).2 (PyVal.bytearray 0)
      = some [⟨5, 3, 8⟩] := by
  have h := extend_untainted_dest_tainted_addition c3St 0 1 [⟨0, 3, 8⟩] (by decide) (by decide)
  exact h.2.trans (by decide)

/-- C7 (confirmed): with a tainted destination and an untainted
addition, the destination's entry after extend is exactly its prior
record R_A: no range is added, removed, shifted, or modified. -/
theorem extend_tainted_dest_untainted_addition (st : State) (a b : Nat) (RA : TaintRecord)
    (hA : taintEntry st (PyVal.bytearray a) = some RA)
    (hB : taintEntry st (PyVal.bytearray b) = none) :
    (api_extend_aspect (some [PyVal.bytearray a, PyVal.bytearray b]) st).1 = PyRet.none_ ∧
    taintEntry (api_extend_aspect (some [PyVal.bytearray a, PyVal.bytearray b]) st).2 (PyVal.bytearray a)
      = some RA := by
  obtain ⟨m, hm, hga⟩ := taintEntry_some_elim hA
  simp only [PyVal.ident] at hga
  have hne := isEmpty_false_of_get m _ _ hga
  simp [taintEntry, taintAt, hm, PyVal.ident] at hB
  rw [run_nonempty st m a b hm hne]
  refine ⟨rfl, ?_⟩
  simp [taintEntry, taintAt, PyVal.ident, get_set_self, hga, hB]

/-- Witness for C7 at a concrete state: the tainted destination keeps
its record unchanged across an append of untainted bytes. -/
theorem extend_tainted_dest_witness :
    taintEntry (api_extend_aspect (some [PyVal.bytearray 0, PyVal.bytearray 1]) c7St).2 (PyVal.bytearray 0)
      = some [⟨1, 1, 4⟩] :=
  (extend_tainted_dest_untainted_addition c7St 0 1 [⟨1, 1, 4⟩] (by decide) (by decide)).2

/-- Ranges are unchanged by a zero shift. -/
theorem map_shiftRange_zero (rs : TaintRecord) : rs.map (shiftRange 0) = rs := by
  induction rs with
  | nil => rfl
  | cons r t ih => simp [shiftRange, ih]

/-- C9 (confirmed): with an empty destination (pre-call length 0) and a
tainted addition, the shift offset is 0 and shifting is the identity:
the addition's ranges appear in the destination's resulting entry with
start offsets, lengths, and sources identical to those in its own
record (after any record copied from the destination, which is empty
when the destination was untainted). -/
theorem extend_empty_destination (st : State) (a b : Nat) (RB : TaintRecord)
    (h0 : content st (PyVal.bytearray a) = [])
    (hB : taintEntry st (PyVal.bytearray b) = some RB) :
    (api_extend_aspect (some [PyVal.bytearray a, PyVal.bytearray b]) st).1 = PyRet.none_ ∧
    taintEntry (api_extend_aspect (some [PyVal.bytearray a, PyVal.bytearray b]) st).2 (PyVal.bytearray a)
      = some ((taintEntry st (PyVal.bytearray a)).getD [] ++ RB) := by
  obtain ⟨m, hm, hgb⟩ := taintEntry_some_elim hB
  simp only [PyVal.ident] at hgb
  have hne := isEmpty_false_of_get m _ _ hgb
  have hlen : (lookupHeap st.heap a).length = 0 := by
    simpa [content, PyVal.ident] using congrArg List.length h0
  rw [run_nonempty st m a b hm hne]
  refine ⟨rfl, ?_⟩
  simp [taintEntry, taintAt, PyVal.ident, get_set_self, hgb, hm, hlen, map_shiftRange_zero]

/-- Witness for C9: an empty untainted destination and an addition
tainted with one range of start 0, length 1, source 6, copied without
any shift. -/
theorem extend_empty_destination_witness :
    taintEntry (api_extend_aspect (some [PyVal.bytearray 0, PyVal.bytearray 1]) c9St).2 (PyVal.bytearray 0)
      = some ((taintEntry c9St (PyVal.bytearray 0)).getD [] ++ [⟨0, 1, 6⟩]) :=
  (extend_empty_destination c9St 0 1 [⟨0, 1, 6⟩] (by decide) (by decide)).2

/-- Shifting both ranges by the same offset preserves disjointness. -/
theorem disjointR_shift (off : Int) (r1 r2 : TaintRange) (h : disjointR r1 r2) :
    disjointR (shiftRange off r1) (shiftRange off r2) := by
  simp only [disjointR, shiftRange] at h ⊢
  omega

/-- The pure merge fact behind the invariant: concatenating a record
that is well formed for the old destination length with the addition's
record shifted by that length yields a record well formed for the sum
of the lengths, covering exactly the bytes either input covered. -/
theorem wf_merge (RA RB : TaintRecord) (lenA lenB : Nat)
    (ha : wfRanges RA lenA) (hb : wfRanges RB lenB) :
    wfRanges (RA ++ RB.map (shiftRange (lenA : Int))) (lenA + lenB) ∧
    (∀ i : Int, coversByte (RA ++ RB.map (shiftRange (lenA : Int))) i ↔
      (coversByte RA i ∨ coversByte RB (i - (lenA : Int)))) := by
  obtain ⟨hba, hpa⟩ := ha
  obtain ⟨hbb, hpb⟩ := hb
  constructor
  · constructor
    · intro r hr
      rcases List.mem_append.mp hr with h | h
      · obtain ⟨h1, h2, h3⟩ := hba r h
        refine ⟨h1, h2, ?_⟩
        push_cast
        omega
      · obtain ⟨r0, hr0, rfl⟩ := List.mem_map.mp h
        obtain ⟨h1, h2, h3⟩ := hbb r0 hr0
        refine ⟨?_, ?_, ?_⟩ <;> simp only [shiftRange] <;> push_cast <;> omega
    · rw [List.pairwise_append]
      refine ⟨hpa, ?_, ?_⟩
      · rw [List.pairwise_map]
        exact hpb.imp (disjointR_shift (lenA : Int) _ _)
      · intro r hr r' hr'
        obtain ⟨r0, hr0, rfl⟩ := List.mem_map.mp hr'
        obtain ⟨_, _, h3⟩ := hba r hr
        obtain ⟨h1', _, _⟩ := hbb r0 hr0
        left
        simp only [shiftRange]
        omega
  · intro i
    simp only [coversByte, List.mem_append]
    constructor
    · rintro ⟨r, hr | hr, hle, hlt⟩
      · exact Or.inl ⟨r, hr, hle, hlt⟩
      · obtain ⟨r0, hr0, rfl⟩ := List.mem_map.mp hr
        simp only [shiftRange] at hle hlt
        exact Or.inr ⟨r0, hr0, by omega, by omega⟩
    · rintro (⟨r, hr, hle, hlt⟩ | ⟨r0, hr0, hle, hlt⟩)
      · exact ⟨r, Or.inl hr, hle, hlt⟩
      · refine ⟨shiftRange (lenA : Int) r0, Or.inr (List.mem_map.mpr ⟨r0, hr0, rfl⟩), ?_, ?_⟩ <;>
          simp only [shiftRange] <;> omega

/-- C8 (confirmed): when each operand's taint record (taking the empty
record where none is stored) satisfies the range invariant against its
buffer's pre-call length, any record the call stores for the
destination satisfies the invariant against the new length
length(A) + length(B), and its ranges cover exactly the bytes that came
from a tainted source: a byte offset of the result is covered iff it
was covered in the old destination, or its offset within the appended
part was covered in the addition. -/
theorem extend_preserves_range_invariant (st : State) (a b : Nat)
    (hwa : wfRanges ((taintEntry st (PyVal.bytearray a)).getD [])
      (content st (PyVal.bytearray a)).length)
    (hwb : wfRanges ((taintEntry st (PyVal.bytearray b)).getD [])
      (content st (PyVal.bytearray b)).length) :
    ∀ rs, taintEntry (api_extend_aspect (some [PyVal.bytearray a, PyVal.bytearray b]) st).2
        (PyVal.bytearray a) = some rs →
      wfRanges rs ((content st (PyVal.bytearray a)).length + (content st (PyVal.bytearray b)).length) ∧
      (∀ i : Int, coversByte rs i ↔
        (coversByte ((taintEntry st (PyVal.bytearray a)).getD []) i ∨
         coversByte ((taintEntry st (PyVal.bytearray b)).getD [])
           (i - ((content st (PyVal.bytearray a)).length : Int)))) := by
  intro rs hrs
  cases hm : st.taintMap with
  | none =>
      rw [run_nomap st a b hm] at hrs
      simp [taintEntry, taintAt] at hrs
  | some m =>
      by_cases he : m.isEmpty
      · have hm0 : m = [] := List.isEmpty_iff.mp he
        subst hm0
        rw [run_empty st a b hm] at hrs
        simp [taintEntry, taintAt, get_tainted_object] at hrs
      · have hne : m.isEmpty = false := by simpa using he
        rw [run_nonempty st m a b hm hne] at hrs
        simp only [taintEntry, taintAt, PyVal.ident, Option.bind, get_set_self] at hrs
        simp [taintEntry, taintAt, hm, PyVal.ident, content] at hwa hwb ⊢
        injection hrs with hrs
        subst hrs
        exact wf_merge ((get_tainted_object m a).getD []) ((get_tainted_object m b).getD [])
          (lookupHeap st.heap a).length (lookupHeap st.heap b).length hwa hwb

/-- Witness for C8: at the concrete both-tainted state, the stored
record satisfies the range invariant against the new length 2 + 3. -/
theorem extend_preserves_range_invariant_witness :
    wfRanges [⟨0, 2, 1⟩, ⟨3, 1, 2⟩]
      ((content c8St (PyVal.bytearray 0)).length + (content c8St (PyVal.bytearray 1)).length) :=
  (extend_preserves_range_invariant c8St 0 1 (by decide) (by decide)
    [⟨0, 2, 1⟩, ⟨3, 1, 2⟩] (by decide)).1

/-- C10 (confirmed): for every two-operand call, the only Tainting Map
identity whose entry may be created or replaced is the destination's:
the entry stored under every other identity, the addition's included
when it is a distinct object, is exactly the same after the call. -/
theorem extend_frame_other_identities (st : State) (d x : PyVal) (k : Nat)
    (hk : k ≠ d.ident) :
    taintAt ((api_extend_aspect (some [d, x]) st).2) k = taintAt st k := by
  have htm : (bytearray_extend st d x).taintMap = st.taintMap := by
    cases d <;> cases x <;> rfl
  cases hm : st.taintMap with
  | none => simp [api_extend_aspect, htm, hm, taintAt]
  | some m =>
      by_cases he : m.isEmpty
      · simp [api_extend_aspect, htm, hm, he, taintAt]
      · have hgs := fun r => get_set_ne m d.ident k r hk
        simp [api_extend_aspect, htm, hm, he, taintAt, hgs]

/-- Witness for C10: at a concrete state the addition's own entry
(identity 1, distinct from the destination's identity 0) is unchanged
by the call. -/
theorem extend_frame_other_identities_witness :
    taintAt ((api_extend_aspect (some [PyVal.bytearray 0, PyVal.bytearray 1]) c10St).2) 1
      = taintAt c10St 1 :=
  extend_frame_other_identities c10St (PyVal.bytearray 0) (PyVal.bytearray 1) 1 (by decide)

end AspectExtend
